import Mathlib

/-!
Shallow embedding of `structure/interactionMatrix.py`.

The Python module builds genome bins (`genomeBin.createBins`), resolves genomic
coordinates to bin indices (`genomeBin.findBinIndex`), accumulates a symmetric
contact-count matrix from a stream of fragment pairs (`genomeBin.matrixProcess`
merged by `genomeBin.generateMatrix`), and post-processes count matrices
(`normaliseCountMatrices`: low-bin masks, sub-matrix file naming, ICE
normalisation).

Modelling conventions:
* numpy `uint32` arrays hold bin starts/ends/indices; chromosome lengths in
  real inputs are far below `2^32`, so bin coordinates are modelled as `Int`
  (chromosome lengths are parsed integers) without a wrap; the one place a
  wrap is observable for ordinary genomes — `np.uint32(position)` applied to
  the arbitrary position string of an input record in `findBinIndex` — is
  modelled explicitly as `% 2^32`.
* Python floor division / modulo on ints and floats (`//`, `%`, `np.floor`,
  `np.ceil` of exact quotients) are `Int.fdiv`, `Int.fmod` and `iceil`.
* count matrices are unbounded `ℕ` functions (`uint32` overflow would need
  `2^32` records hitting one cell; addition commutes with the wrap anyway).
* the ICE normalisation float arithmetic is modelled over `ℚ`, with
  `np.sqrt` an opaque function parameter (its value never matters for the
  property proved) and `%.8f` serialisation as rounding to 8 decimals.
-/

/-- `⌈a / b⌉` on integers, as numpy's `np.ceil` of an exact float quotient:
the negated floor division of the negation. -/
def iceil (a b : Int) : Int := -((-a).fdiv b)

/-- `np.arange(start, stop, step)`: numpy first computes the length
`⌈(stop - start) / step⌉` (clamped at 0) and then takes `start + k * step`. -/
def arangeI (start stop step : Int) : List Int :=
  (List.range (iceil (stop - start) step).toNat).map
    (fun (k : Nat) => start + (k : Int) * step)

/-- Running (inclusive) prefix sums starting from `acc`; helper for `cumsum`. -/
def cumsumFrom (acc : Int) : List Int → List Int
  | [] => []
  | x :: xs => (acc + x) :: cumsumFrom (acc + x) xs

/-- `np.cumsum`: inclusive prefix sums. -/
def cumsum (l : List Int) : List Int := cumsumFrom 0 l

/-- Per-chromosome slice of `genomeBin.binDict`: the `'start'`, `'end'` and
`'index'` arrays and the `'count'` entry (`binNames`/`writeBed` carry the same
data in string form and are not needed by any claim). -/
structure ChrBins where
  starts : List Int
  ends : List Int
  index : List Nat
  count : Nat
  deriving Repr, DecidableEq

/-- One iteration of the chromosome loop of `genomeBin.createBins`
(lines 35-74): build the bin start/end arrays for a chromosome of length
`chrLen` with nominal width `maxWidth`, assigning global indices from
`count0`.  Failure cases of the Python arithmetic are surfaced as errors:
`maxWidth = 0` raises `ZeroDivisionError` (`int % 0` resp. `float / 0`), and
in variable-width mode a zero ideal bin count makes `excess / binNo` the float
`nan`, so `int(...)` raises `ValueError`. -/
def chrBins (maxWidth : Int) (fixedWidth : Bool) (chrLen : Int) (count0 : Nat) :
    Except String ChrBins :=
  if fixedWidth then
    if maxWidth = 0 then .error "ZeroDivisionError" else
    let remainder := Int.fmod chrLen maxWidth
    let start := Int.fdiv remainder 2
    let firstEnd := start + maxWidth
    let binEnd := arangeI firstEnd (chrLen + 1) maxWidth
    let binStart := binEnd.map (fun e => e - maxWidth + 1)
    .ok ⟨binStart, binEnd, List.range' count0 binEnd.length, binEnd.length⟩
  else
    if maxWidth = 0 then .error "ZeroDivisionError" else
    let binNo := iceil chrLen maxWidth
    if binNo = 0 then .error "ValueError" else
    let excess := binNo * maxWidth - chrLen
    let largeBin := maxWidth - Int.fdiv excess binNo
    let smallBin := maxWidth - iceil excess binNo
    let smallBinNo := Int.fmod excess binNo
    let largeBinNo := binNo - smallBinNo
    let binWidth := List.replicate largeBinNo.toNat largeBin ++
      List.replicate smallBinNo.toNat smallBin
    let binEnd := cumsum binWidth
    let binStart := List.zipWith (fun e w => e - w + 1) binEnd binWidth
    .ok ⟨binStart, binEnd, List.range' count0 binEnd.length, binEnd.length⟩

/-- The chromosome loop of `genomeBin.createBins`, threading the running
global bin count. -/
def createBinsGo (maxWidth : Int) (fixedWidth : Bool) :
    List (String × Int) → Nat → Except String (List (String × ChrBins) × Nat)
  | [], count => .ok ([], count)
  | (chrName, chrLen) :: rest, count =>
    match chrBins maxWidth fixedWidth chrLen count with
    | .error e => .error e
    | .ok cb =>
      match createBinsGo maxWidth fixedWidth rest (count + cb.count) with
      | .error e => .error e
      | .ok (dict, total) => .ok ((chrName, cb) :: dict, total)

/-- The `genomeBin` object state: `binDict` (ordered chromosome → bin arrays)
and `binCount`. -/
structure GenomeBin where
  binDict : List (String × ChrBins)
  binCount : Nat
  deriving Repr, DecidableEq

/-- `genomeBin.createBins` for a parsed chromosome-length table (the file is a
list of `(name, length)` rows; chromosome names in real tables are distinct,
which the ordered-dict model below relies on). -/
def createBins (chrData : List (String × Int)) (maxWidth : Int)
    (fixedWidth : Bool) : Except String GenomeBin :=
  match createBinsGo maxWidth fixedWidth chrData 0 with
  | .error e => .error e
  | .ok (dict, total) => .ok ⟨dict, total⟩

/-- Result of `genomeBin.findBinIndex`: a `np.uint32` bin index, or one of the
string sentinels `'nochr'` / `'nobin'`.  These three shapes are the only
values the Python function can return, so the `raise ValueError` catch-all in
`matrixProcess` is unreachable. -/
inductive BinResult where
  | index (i : Nat)
  | nochr
  | nobin
  deriving Repr, DecidableEq

/-- `genomeBin.findBinIndex` (lines 113-131): cast the position to `uint32`,
binary-search the chromosome's sorted bin-end array for the first end
`≥ position` (`np.searchsorted`, side `left`), answer `'nochr'` on a missing
chromosome (`KeyError`), `'nobin'` when the search runs past the last bin
(`IndexError`) or the located bin starts after the position. -/
def findBinIndex (gb : GenomeBin) (chrom : String) (position : Nat) : BinResult :=
  let pos : Int := ((position % 4294967296 : Nat) : Int)
  match gb.binDict.lookup chrom with
  | none => .nochr
  | some cb =>
    let binLocation := cb.ends.findIdx (fun e => decide (pos ≤ e))
    match cb.starts[binLocation]?, cb.index[binLocation]? with
    | some binStart, some binIndex =>
        if binStart ≤ pos then .index binIndex else .nobin
    | _, _ => .nobin

/-- One record of the fragment-pair stream, already split on tabs: columns
0,1 and 3,4 are the two `(chromosome, position)` fragends used by
`matrixProcess`. -/
abbrev FragPair := (String × Nat) × (String × Nat)

/-- Worker state of `genomeBin.matrixProcess`: the count matrix and the
`logData` array (`logData[0]` = total, `logData[1]` = `'nochr'` rejections,
`logData[2]` = `'nobin'` rejections, `logData[3]` = accepted). -/
structure MState where
  matrix : Nat → Nat → Nat
  total : Nat
  nochr : Nat
  nobin : Nat
  accepted : Nat

/-- The zero-initialised worker state (`np.zeros`). -/
def zeroMState : MState := ⟨fun _ _ => 0, 0, 0, 0, 0⟩

/-- `matrix[i][j] += 1`. -/
def bump (m : Nat → Nat → Nat) (i j : Nat) : Nat → Nat → Nat :=
  fun x y => if x = i ∧ y = j then m x y + 1 else m x y

/-- The fragend-resolution loop of `matrixProcess` (lines 152-160): resolve
the first end; on success resolve the second; the first failure sentinel
(`'nochr'`/`'nobin'`) breaks the loop and is reported, `none` means both ends
resolved. -/
def pairFailure (gb : GenomeBin) (rec : FragPair) : Option BinResult :=
  match findBinIndex gb rec.1.1 rec.1.2 with
  | .index _ =>
    match findBinIndex gb rec.2.1 rec.2.2 with
    | .index _ => none
    | r => some r
  | r => some r

/-- The two resolved bin indices of a record, when both ends resolve. -/
def pairIndices (gb : GenomeBin) (rec : FragPair) : Option (Nat × Nat) :=
  match findBinIndex gb rec.1.1 rec.1.2 with
  | .index i =>
    match findBinIndex gb rec.2.1 rec.2.2 with
    | .index j => some (i, j)
    | _ => none
  | _ => none

/-- The loop body of `genomeBin.matrixProcess` (lines 146-173) for one queue
record: count the record, resolve both fragends, and either apply the two
symmetric matrix increments (`matrix[i0][i1] += 1; matrix[i1][i0] += 1`) or
bump the rejection counter matching the failure sentinel.  The final
`raise ValueError('unrecognised bin index')` guards a fourth shape of
`findBinIndex` result, which does not exist (`BinResult` is exhaustive). -/
def matrixProcessStep (gb : GenomeBin) (st : MState) (rec : FragPair) : MState :=
  let st := { st with total := st.total + 1 }
  match findBinIndex gb rec.1.1 rec.1.2 with
  | .index i =>
    match findBinIndex gb rec.2.1 rec.2.2 with
    | .index j =>
        { st with accepted := st.accepted + 1,
                  matrix := bump (bump st.matrix i j) j i }
    | .nochr => { st with nochr := st.nochr + 1 }
    | .nobin => { st with nobin := st.nobin + 1 }
  | .nochr => { st with nochr := st.nochr + 1 }
  | .nobin => { st with nobin := st.nobin + 1 }

/-- `genomeBin.matrixProcess` over a worker's whole share of the stream,
starting from the zero matrix and zero counters. -/
def matrixProcess (gb : GenomeBin) (records : List FragPair) : MState :=
  records.foldl (matrixProcessStep gb) zeroMState

/-- Element-wise sum of two worker results (`finalMatrix += processMatrix;
finalLog += processLog` in `generateMatrix`). -/
def MState.add (a b : MState) : MState :=
  ⟨fun i j => a.matrix i j + b.matrix i j, a.total + b.total,
    a.nochr + b.nochr, a.nobin + b.nobin, a.accepted + b.accepted⟩

/-- The merge loop of `genomeBin.generateMatrix` (lines 210-221): the first
worker's result seeds `finalMatrix`/`finalLog`, every further worker result is
added element-wise. -/
def mergeResults : List MState → MState
  | [] => zeroMState
  | r :: rest => rest.foldl MState.add r

/-- `np.fill_diagonal(matrix, 0)`. -/
def fillDiag0 (mat : Nat → Nat → Nat) : Nat → Nat → Nat :=
  fun i j => if i = j then 0 else mat i j

/-- The regional assignment `binSums[indices] = subMatrix.sum(axis=1)` of
`normaliseCountMatrices.__colSumsMatrix` (lines 327-329): every bin of the
region gets the row sum of the region's own sub-matrix; bins outside the
region keep their previous value (so a later region overwrites a shared bin). -/
def assignRegionSums (mat : Nat → Nat → Nat) (indices : List Nat)
    (binSums : Nat → Nat) : Nat → Nat :=
  fun b => if b ∈ indices then (indices.map (fun j => mat b j)).sum else binSums b

/-- `normaliseCountMatrices.__colSumsMatrix` for one loaded matrix: optionally
zero the diagonal, then fill `binSums` region by region (regions are the
`regionIndices` dictionary, modelled as an association list iterated in
order).  The `m = n` and symmetry `ValueError` checks only abort — they never
change a computed value — and are accounted for in the theorems by concrete
symmetric matrices. -/
def colSumsMatrix (regions : List (String × List Nat)) (rmDiag : Bool)
    (mat : Nat → Nat → Nat) : Nat → Nat :=
  let inMatrix := if rmDiag then fillDiag0 mat else mat
  regions.foldl (fun binSums rg => assignRegionSums inMatrix rg.2 binSums)
    (fun _ => 0)

/-- `np.array(colSumList).min(axis=0)` at one bin: minimum over the per-matrix
column sums (the matrix list is nonempty in every real call). -/
def listMin : List Nat → Nat
  | [] => 0
  | x :: xs => xs.foldl min x

/-- `normaliseCountMatrices.extractLowBins` (lines 333-375), with matrices
already loaded: per-matrix region-restricted column sums, the element-wise
minimum across matrices, the strict `< minCount` comparison, and the final
per-region slicing `lowBins[indices]`. -/
def extractLowBins (regions : List (String × List Nat))
    (mats : List (Nat → Nat → Nat)) (minCount : Nat) (rmDiag : Bool) :
    List (String × List Bool) :=
  let colSumList := mats.map (colSumsMatrix regions rmDiag)
  let lowBins : Nat → Bool :=
    fun b => decide (listMin (colSumList.map (fun s => s b)) < minCount)
  regions.map (fun rg => (rg.1, rg.2.map lowBins))

/-- Modelled from the spec (for comparison with `extractLowBins`): "for each
region compute each bin's total intra-region contact sum (sum over the
region's row restricted to the region's own columns)...  Take, per bin, the
minimum such sum across all supplied matrices; a bin is low if that minimum is
strictly below `minCount`" — each region's mask uses that region's own sums. -/
def specRegionLowMask (regions : List (String × List Nat))
    (mats : List (Nat → Nat → Nat)) (minCount : Nat) (rmDiag : Bool) :
    List (String × List Bool) :=
  regions.map (fun rg =>
    (rg.1, rg.2.map (fun b =>
      decide (listMin (mats.map (fun mat =>
        let inMatrix := if rmDiag then fillDiag0 mat else mat
        (rg.2.map (fun j => inMatrix b j)).sum)) < minCount))))

/-- The per-region file-naming loop of
`normaliseCountMatrices.__saveSubMatrixProcess` (lines 394-416) for one input
matrix whose extracted sample name is `sampleName`: look up the region's low
bins (`KeyError` if absent), check the recorded mask length against the
region's index count (`ValueError 'Number of bins uncertain'`), then format
the output file name.  With `rmDiag` the name is
`sample.region.minCount.noself.countMatrix.gz`; without it the code reads
`self.minCount`, an attribute no method of `normaliseCountMatrices` ever
assigns (`__init__` sets only `matrixList`, `regionFile`, `binNames`,
`binChr`, `binStart`, `binEnd`, `regionIndices`), so Python raises
`AttributeError`. -/
def saveSubMatrixProcessNames (sampleName : String)
    (regions : List (String × List Nat)) (lowBins : List (String × List Bool))
    (minCount : Nat) (rmDiag : Bool) : Except String (List String) :=
  regions.foldlM (fun fileList rg => do
    match lowBins.lookup rg.1 with
    | none => .error "KeyError"
    | some rLowBins =>
      if rLowBins.length ≠ rg.2.length then
        .error "ValueError: Number of bins uncertain"
      else if rmDiag then
        .ok (fileList ++ [s!"{sampleName}.{rg.1}.{minCount}.noself.countMatrix.gz"])
      else
        .error "AttributeError: minCount") []

/-- Rounding to 8 decimal places: the `'%.8f'` format of `np.savetxt` followed
by `np.loadtxt` of the written text. -/
def round8 (q : ℚ) : ℚ := (round (q * 100000000) : ℤ) / 100000000

/-- `inMatrix.sum(axis=0)` of an `m × m` matrix at column `i`. -/
def colSumQ (m : Nat) (M : Nat → Nat → ℚ) (i : Nat) : ℚ :=
  ∑ j in Finset.range m, M j i

/-- The bias-iteration loop of
`normaliseCountMatrices.__iceNormalisationProcess` (lines 492-506), with the
remaining iteration budget as fuel: recompute `dbias` from column sums,
normalise it by the mean of its non-zero entries (an all-zero matrix makes
that mean the float `nan`; over `ℚ` the division yields 0 — the corner never
reaches the claims proved below), replace zeros by 1, accumulate it into
`bias`, divide it out of both matrix axes, and stop early once the absolute
change against `old_dbias` drops below `min_diff`. -/
def iceLoop (m : Nat) (minDiff : ℚ) :
    Nat → (Nat → ℚ) → (Nat → ℚ) → (Nat → Nat → ℚ) → ((Nat → ℚ) × (Nat → Nat → ℚ))
  | 0, bias, _, M => (bias, M)
  | iter + 1, bias, oldDbias, M =>
    let dbias0 := colSumQ m M
    let nz := (Finset.range m).filter (fun i => dbias0 i ≠ 0)
    let mean := (∑ i in nz, dbias0 i) / (nz.card : ℚ)
    let dbias := fun i => if dbias0 i / mean = 0 then 1 else dbias0 i / mean
    let bias := fun i => bias i * dbias i
    let M := fun i j => M i j / dbias i / dbias j
    if ∑ i in Finset.range m, |oldDbias i - dbias i| < minDiff then (bias, M)
    else iceLoop m minDiff iter bias dbias M

/-- `normaliseCountMatrices.__iceNormalisationProcess` (lines 466-519) for one
`m × m` sub-matrix already loaded as `orig`, abstracting file I/O: the result
is the persisted bias vector (written with `'%.8f'`, hence `round8`) and the
persisted normalised matrix, which the code recomputes from the *reloaded*
bias file and the *reloaded original* matrix (`bias = np.loadtxt(biasFile)`;
`inMatrix = np.loadtxt(matrix)`) before writing it with `'%.8f'`.  `np.sqrt`
is the opaque parameter `sqrtA`.  A non-symmetric matrix raises `ValueError`
before any computation. -/
def iceNormalisationProcess (sqrtA : ℚ → ℚ) (m : Nat) (maxIter : Nat)
    (minDiff : ℚ) (orig : Nat → Nat → ℚ) :
    Except String ((Nat → ℚ) × (Nat → Nat → ℚ)) :=
  if ∀ i ∈ Finset.range m, ∀ j ∈ Finset.range m, orig i j = orig j i then
    let desiredSum : ℚ :=
      (((Finset.range m).filter (fun i => 0 < colSumQ m orig i)).card : ℚ)
    let loopOut := iceLoop m minDiff maxIter (fun _ => 1) (fun _ => 1) orig
    let bias := loopOut.1
    let finalM := loopOut.2
    let totalSum : ℚ := ∑ i in Finset.range m, ∑ j in Finset.range m, finalM i j
    let biasAdj := fun i => bias i * sqrtA (totalSum / desiredSum)
    let storedBias := fun i => round8 (biasAdj i)
    let normMatrix := fun i j => round8 (orig i j / storedBias i / storedBias j)
    .ok (storedBias, normMatrix)
  else .error "ValueError: Matrix must be symetrical"

/-! ### Integer division helpers -/

theorem ediv_eq_of {a b q r : Int} (hb : 0 < b) (h : a = b * q + r)
    (h0 : 0 ≤ r) (h1 : r < b) : a / b = q := by
  subst h
  rw [add_comm, Int.add_mul_ediv_left r q (by omega),
    Int.ediv_eq_zero_of_lt h0 h1, zero_add]

theorem iceil_eq_ediv (a : Int) {b : Int} (hb : 0 < b) :
    iceil a b = (a + b - 1) / b := by
  unfold iceil
  rw [Int.fdiv_eq_ediv _ (le_of_lt hb)]
  have hqr : a = b * (a / b) + a % b := (Int.ediv_add_emod a b).symm
  have h0 : 0 ≤ a % b := Int.emod_nonneg a (by omega)
  have h1 : a % b < b := Int.emod_lt_of_pos a hb
  by_cases hr : a % b = 0
  · have h2 : (-a) / b = -(a / b) :=
      @ediv_eq_of (-a) b (-(a / b)) 0 hb (by rw [hr] at hqr; linear_combination -hqr)
        le_rfl hb
    have h3 : (a + b - 1) / b = a / b :=
      @ediv_eq_of (a + b - 1) b (a / b) (b - 1) hb
        (by rw [hr] at hqr; linear_combination hqr) (by omega) (by omega)
    rw [h2, h3, neg_neg]
  · have h2 : (-a) / b = -(a / b) - 1 :=
      @ediv_eq_of (-a) b (-(a / b) - 1) (b - a % b) hb (by linear_combination -hqr)
        (by omega) (by omega)
    have h3 : (a + b - 1) / b = a / b + 1 :=
      @ediv_eq_of (a + b - 1) b (a / b + 1) (a % b - 1) hb (by linear_combination hqr)
        (by omega) (by omega)
    rw [h2, h3]; ring

theorem iceil_cases (a : Int) {b : Int} (hb : 0 < b) :
    iceil a b = a / b + if a % b = 0 then 0 else 1 := by
  rw [iceil_eq_ediv a hb]
  have hqr : a = b * (a / b) + a % b := (Int.ediv_add_emod a b).symm
  have h0 : 0 ≤ a % b := Int.emod_nonneg a (by omega)
  have h1 : a % b < b := Int.emod_lt_of_pos a hb
  by_cases hr : a % b = 0
  · rw [if_pos hr, add_zero]
    exact @ediv_eq_of (a + b - 1) b (a / b) (b - 1) hb
      (by rw [hr] at hqr; linear_combination hqr) (by omega) (by omega)
  · rw [if_neg hr]
    exact @ediv_eq_of (a + b - 1) b (a / b + 1) (a % b - 1) hb
      (by linear_combination hqr) (by omega) (by omega)

theorem iceil_pos {a b : Int} (hb : 0 < b) (ha : 1 ≤ a) : 1 ≤ iceil a b := by
  rw [iceil_eq_ediv a hb, Int.le_ediv_iff_mul_le hb]; omega

theorem iceil_le_self {a b : Int} (hb : 0 < b) (ha : 0 ≤ a) : iceil a b ≤ a := by
  rw [iceil_eq_ediv a hb]
  have h1 : a ≤ a * b := le_mul_of_one_le_right ha hb
  have h2 : (a + b - 1) / b < a + 1 := by
    rw [Int.ediv_lt_iff_lt_mul hb]; linarith
  omega

theorem le_mul_iceil {a b : Int} (hb : 0 < b) : a ≤ b * iceil a b := by
  rw [iceil_cases a hb]
  have hqr := Int.ediv_add_emod a b
  have h0 := Int.emod_nonneg a (ne_of_gt hb)
  have h1 := Int.emod_lt_of_pos a hb
  by_cases hr : a % b = 0
  · rw [if_pos hr]; rw [hr] at hqr; linarith
  · rw [if_neg hr]; nlinarith

theorem iceil_le_iceil {a1 a2 : Int} {b : Int} (hb : 0 < b) (h : a1 ≤ a2) :
    iceil a1 b ≤ iceil a2 b := by
  rw [iceil_eq_ediv _ hb, iceil_eq_ediv _ hb]
  exact Int.ediv_le_ediv hb (by omega)

theorem iceil_mul_self (b k : Int) (hb : 0 < b) : iceil (b * k) b = k := by
  rw [iceil_cases _ hb, Int.mul_ediv_cancel_left _ (ne_of_gt hb),
    Int.mul_emod_right, if_pos rfl, add_zero]

/-! ### cumsum / bin-list lemmas -/

theorem cumsumFrom_length (acc : Int) (l : List Int) :
    (cumsumFrom acc l).length = l.length := by
  induction l generalizing acc with
  | nil => rfl
  | cons x xs ih => simp [cumsumFrom, ih]

theorem cumsum_length (l : List Int) : (cumsum l).length = l.length :=
  cumsumFrom_length 0 l

theorem cumsumFrom_mem_le (acc : Int) (l : List Int) (hl : ∀ x ∈ l, 0 ≤ x) :
    ∀ e ∈ cumsumFrom acc l, e ≤ acc + l.sum := by
  induction l generalizing acc with
  | nil => simp [cumsumFrom]
  | cons x xs ih =>
    intro e he
    have hs : 0 ≤ xs.sum :=
      List.sum_nonneg fun y hy => hl y (List.mem_cons_of_mem _ hy)
    simp only [cumsumFrom, List.mem_cons] at he
    rcases he with rfl | he
    · simp only [List.sum_cons]; omega
    · have := ih (acc + x) (fun y hy => hl y (List.mem_cons_of_mem _ hy)) e he
      simp only [List.sum_cons]; omega

theorem lengths_eq_widths (acc : Int) (ws : List Int) :
    List.zipWith (fun s e => e - s + 1)
      (List.zipWith (fun e wd => e - wd + 1) (cumsumFrom acc ws) ws)
      (cumsumFrom acc ws) = ws := by
  induction ws generalizing acc with
  | nil => rfl
  | cons x xs ih =>
    simp only [cumsumFrom, List.zipWith_cons_cons, ih (acc + x)]
    congr 1; ring

theorem startEnd_head (acc x : Int) (xs : List Int) :
    (List.zipWith (fun e wd => e - wd + 1)
      (cumsumFrom acc (x :: xs)) (x :: xs)).getD 0 0 = acc + 1 := by
  simp [cumsumFrom]

theorem startEnd_contig (ws : List Int) (acc : Int) (k : Nat)
    (hk : k + 1 < ws.length) :
    (List.zipWith (fun e wd => e - wd + 1) (cumsumFrom acc ws) ws).getD (k + 1) 0
      = (cumsumFrom acc ws).getD k 0 + 1 := by
  induction ws generalizing acc k with
  | nil => simp at hk
  | cons x xs ih =>
    cases k with
    | zero =>
      cases xs with
      | nil => simp at hk
      | cons y ys => simp [cumsumFrom]
    | succ k =>
      simp only [cumsumFrom, List.zipWith_cons_cons, List.getD_cons_succ]
      exact ih (acc + x) k (by simpa using hk)

theorem findIdx_eq_length_of {α : Type} (pred : α → Bool) (l : List α)
    (h : ∀ a ∈ l, pred a = false) : l.findIdx pred = l.length := by
  induction l with
  | nil => rfl
  | cons x xs ih =>
    have hx := h x (List.mem_cons_self x xs)
    simp [List.findIdx_cons, hx, ih fun a ha => h a (List.mem_cons_of_mem _ ha)]

theorem cumsumFrom_findIdx (ws : List Int) (acc p : Int)
    (hw : ∀ x ∈ ws, 1 ≤ x) (hlo : acc < p) (hhi : p ≤ acc + ws.sum) :
    ∀ k, k = (cumsumFrom acc ws).findIdx (fun e => decide (p ≤ e)) →
      k < ws.length ∧ p ≤ (cumsumFrom acc ws).getD k 0 ∧
      (cumsumFrom acc ws).getD k 0 - ws.getD k 0 + 1 ≤ p := by
  induction ws generalizing acc with
  | nil => simp only [List.sum_nil, add_zero] at hhi; omega
  | cons x xs ih =>
    intro k hk
    by_cases hpx : p ≤ acc + x
    · have : k = 0 := by
        simp [cumsumFrom, List.findIdx_cons, hpx] at hk; exact hk
      subst this
      refine ⟨by simp, ?_, ?_⟩ <;> simp [cumsumFrom] <;> omega
    · have hx1 : 1 ≤ x := hw x (List.mem_cons_self x xs)
      have hk' : k = (cumsumFrom (acc + x) xs).findIdx (fun e => decide (p ≤ e)) + 1 := by
        simp [cumsumFrom, List.findIdx_cons, hpx] at hk; exact hk
      obtain ⟨h1, h2, h3⟩ := ih (acc + x)
        (fun y hy => hw y (List.mem_cons_of_mem _ hy)) (by omega)
        (by simp only [List.sum_cons] at hhi; omega) _ rfl
      subst hk'
      refine ⟨by simpa using h1, ?_, ?_⟩
      · simpa [cumsumFrom, List.getD_cons_succ] using h2
      · simpa [cumsumFrom, List.getD_cons_succ] using h3

/-! ### The two bin-construction modes of `createBins` -/

theorem varWidths_facts (w L B excess q c r : Int) (hw : 1 ≤ w) (hL : 1 ≤ L)
    (hB : B = iceil L w) (hex : excess = B * w - L) (hq : q = excess.fdiv B)
    (hc : c = iceil excess B) (hr : r = excess.fmod B) :
    (∀ x ∈ List.replicate (B - r).toNat (w - q) ++
      List.replicate r.toNat (w - c), 1 ≤ x) ∧
    (List.replicate (B - r).toNat (w - q) ++
      List.replicate r.toNat (w - c)).sum = L ∧
    (List.replicate (B - r).toNat (w - q) ++
      List.replicate r.toNat (w - c)).length = B.toNat := by
  have hw0 : (0:ℤ) < w := by omega
  have hB1 : 1 ≤ B := by rw [hB]; exact iceil_pos hw0 hL
  have hB0 : (0:ℤ) < B := by omega
  have hBL : B ≤ L := by rw [hB]; exact iceil_le_self hw0 (by omega)
  have hex0 : 0 ≤ excess := by
    have h := @le_mul_iceil L w hw0
    rw [← hB] at h
    have hcm : w * B = B * w := mul_comm w B
    linarith
  have hqe : q = excess / B := by rw [hq, Int.fdiv_eq_ediv _ (by omega)]
  have hre : r = excess % B := by rw [hr, Int.fmod_eq_emod _ (by omega)]
  have hdm : B * q + r = excess := by
    rw [hqe, hre]; exact Int.ediv_add_emod excess B
  have hr0 : 0 ≤ r := by rw [hre]; exact Int.emod_nonneg excess (by omega)
  have hr1 : r < B := by rw [hre]; exact Int.emod_lt_of_pos excess hB0
  have hexle : excess ≤ B * (w - 1) := by
    have hcm : B * (w - 1) = B * w - B := by ring
    linarith
  have hcw : c ≤ w - 1 := by
    have h1 : iceil excess B ≤ iceil (B * (w - 1)) B := iceil_le_iceil hB0 hexle
    rw [iceil_mul_self _ _ hB0] at h1
    rw [hc]; exact h1
  have hqc : c = q + if excess % B = 0 then 0 else 1 := by
    rw [hc, iceil_cases _ hB0, ← hqe]
  refine ⟨?_, ?_, ?_⟩
  · intro x hx
    rcases List.mem_append.mp hx with hx | hx <;>
      rcases List.eq_of_mem_replicate hx with rfl
    · split at hqc <;> omega
    · omega
  · rw [List.sum_append, List.sum_replicate, List.sum_replicate,
      nsmul_eq_mul, nsmul_eq_mul,
      Int.toNat_of_nonneg (by omega : (0:ℤ) ≤ B - r),
      Int.toNat_of_nonneg (by omega : (0:ℤ) ≤ r)]
    by_cases hz : excess % B = 0
    · rw [if_pos hz] at hqc
      have hr00 : r = 0 := by rw [hre]; exact hz
      subst hqc; subst hr00
      linear_combination (-1 : ℤ) * hdm - hex
    · rw [if_neg hz] at hqc
      subst hqc
      linear_combination (-1 : ℤ) * hdm - hex
  · rw [List.length_append, List.length_replicate, List.length_replicate]
    omega

theorem chrBins_var (w L : Int) (c0 : Nat) (hw : 1 ≤ w) (hL : 1 ≤ L) :
    ∃ ws : List Int, (∀ x ∈ ws, 1 ≤ x) ∧ ws.sum = L ∧
      ws.length = (iceil L w).toNat ∧
      chrBins w false L c0 =
        .ok ⟨List.zipWith (fun e wd => e - wd + 1) (cumsum ws) ws, cumsum ws,
          List.range' c0 ws.length, ws.length⟩ := by
  obtain ⟨h1, h2, h3⟩ := varWidths_facts w L (iceil L w) (iceil L w * w - L)
    ((iceil L w * w - L).fdiv (iceil L w))
    (iceil (iceil L w * w - L) (iceil L w))
    ((iceil L w * w - L).fmod (iceil L w)) hw hL rfl rfl rfl rfl rfl
  have hB1 : 1 ≤ iceil L w := iceil_pos (by omega) hL
  refine ⟨_, h1, h2, h3, ?_⟩
  simp only [chrBins, if_neg (by omega : ¬w = 0), if_neg (by omega : ¬iceil L w = 0),
    Bool.false_eq_true, if_false, cumsum_length]

theorem fixed_count (w L : Int) (hw : 1 ≤ w) (_hL0 : 0 ≤ L) :
    iceil (L + 1 - (Int.fdiv (Int.fmod L w) 2 + w)) w = L / w := by
  have hw0 : (0:ℤ) < w := by omega
  have hfm : Int.fmod L w = L % w := Int.fmod_eq_emod _ (by omega)
  have hfd : Int.fdiv (L % w) 2 = L % w / 2 := Int.fdiv_eq_ediv _ (by omega)
  rw [hfm, hfd]
  have hR0 : 0 ≤ L % w := Int.emod_nonneg L (by omega)
  have hR1 : L % w < w := Int.emod_lt_of_pos L hw0
  have hdm : w * (L / w) + L % w = L := Int.ediv_add_emod L w
  have hH : 2 * (L % w / 2) ≤ L % w ∧ L % w ≤ 2 * (L % w / 2) + 1 := by omega
  rw [iceil_eq_ediv _ hw0]
  exact @ediv_eq_of (L + 1 - (L % w / 2 + w) + w - 1) w (L / w) (L % w - L % w / 2)
    hw0 (by linear_combination -hdm) (by omega) (by omega)

theorem arangeI_length (start stop step : Int) :
    (arangeI start stop step).length = (iceil (stop - start) step).toNat := by
  rw [arangeI, List.length_map, List.length_range]

theorem arangeI_getD (start stop step : Int) (k : Nat)
    (hk : k < (arangeI start stop step).length) :
    (arangeI start stop step).getD k 0 = start + k * step := by
  unfold arangeI at hk ⊢
  rw [List.getD_eq_getElem _ _ hk, List.getElem_map, List.getElem_range]

theorem lengths_fixed (w : Int) (l : List Int) :
    List.zipWith (fun s e => e - s + 1) (l.map (fun e => e - w + 1)) l
      = List.replicate l.length w := by
  induction l with
  | nil => rfl
  | cons x xs ih =>
    simp only [List.map_cons, List.zipWith_cons_cons, ih, List.length_cons,
      List.replicate_succ]
    congr 1
    ring

theorem chrBins_fixed (w L : Int) (c0 : Nat) (hw : w ≠ 0) :
    chrBins w true L c0 =
      .ok ⟨(arangeI (Int.fdiv (Int.fmod L w) 2 + w) (L + 1) w).map
            (fun e => e - w + 1),
          arangeI (Int.fdiv (Int.fmod L w) 2 + w) (L + 1) w,
          List.range' c0 (arangeI (Int.fdiv (Int.fmod L w) 2 + w) (L + 1) w).length,
          (arangeI (Int.fdiv (Int.fmod L w) 2 + w) (L + 1) w).length⟩ := by
  simp [chrBins, hw]

theorem createBinsGo_count_le (w : Int) (fx : Bool) :
    ∀ (chrData : List (String × Int)) (c0 : Nat) dict total,
      createBinsGo w fx chrData c0 = .ok (dict, total) → c0 ≤ total := by
  intro chrData
  induction chrData with
  | nil =>
    intro c0 dict total h
    simp only [createBinsGo, Except.ok.injEq, Prod.mk.injEq] at h
    omega
  | cons hd rest ih =>
    obtain ⟨name, len⟩ := hd
    intro c0 dict total h
    simp only [createBinsGo] at h
    split at h
    · simp at h
    · rename_i cb heq
      split at h
      · simp at h
      · rename_i dict2 total2 heq2
        simp only [Except.ok.injEq, Prod.mk.injEq] at h
        have := ih (c0 + cb.count) dict2 total2 heq2
        omega

theorem createBinsGo_lookup (w : Int) (fx : Bool) (chrom : String) (L : Int) :
    ∀ (chrData : List (String × Int)) (c0 : Nat) dict total,
      (chrData.map Prod.fst).Nodup →
      createBinsGo w fx chrData c0 = .ok (dict, total) →
      (chrom, L) ∈ chrData →
      ∃ c1 cb, chrBins w fx L c1 = .ok cb ∧ dict.lookup chrom = some cb ∧
        c1 + cb.count ≤ total := by
  intro chrData
  induction chrData with
  | nil => intro _ _ _ _ _ hmem; simp at hmem
  | cons hd rest ih =>
    obtain ⟨name, len⟩ := hd
    intro c0 dict total hnd h hmem
    simp only [createBinsGo] at h
    split at h
    · simp at h
    · rename_i cb heq
      split at h
      · simp at h
      · rename_i dict2 total2 heq2
        simp only [Except.ok.injEq, Prod.mk.injEq] at h
        obtain ⟨hdict, htot⟩ := h
        rcases List.mem_cons.mp hmem with heqm | hmem2
        · have hcn : chrom = name := congrArg Prod.fst heqm
          have hLl : L = len := congrArg Prod.snd heqm
          subst hcn; subst hLl
          refine ⟨c0, cb, heq, ?_, ?_⟩
          · rw [← hdict, List.lookup_cons]
            simp
          · have := createBinsGo_count_le w fx rest (c0 + cb.count) dict2
              total2 heq2
            omega
        · have hnd2 : name ∉ rest.map Prod.fst ∧ (rest.map Prod.fst).Nodup := by
            rw [List.map_cons, List.nodup_cons] at hnd; exact hnd
          have hne : chrom ≠ name := by
            have hmm : chrom ∈ rest.map Prod.fst :=
              List.mem_map_of_mem Prod.fst hmem2
            intro hc; exact hnd2.1 (hc ▸ hmm)
          obtain ⟨c1, cb1, ha, hb, hc⟩ := ih (c0 + cb.count) dict2 total2
            hnd2.2 heq2 hmem2
          refine ⟨c1, cb1, ha, ?_, by omega⟩
          rw [← hdict, List.lookup_cons]
          simp [beq_eq_false_iff_ne.mpr hne, hb]

theorem lookup_none_of (chrom : String) :
    ∀ dict : List (String × ChrBins), (∀ p ∈ dict, p.1 ≠ chrom) →
      dict.lookup chrom = none := by
  intro dict
  induction dict with
  | nil => intro _; rfl
  | cons hd rest ih =>
    intro h
    obtain ⟨name, cb⟩ := hd
    rw [List.lookup_cons]
    have hne : chrom ≠ name := fun hc =>
      h (name, cb) (List.mem_cons_self _ _) (by simp [hc])
    simp [beq_eq_false_iff_ne.mpr hne,
      ih fun p hp => h p (List.mem_cons_of_mem _ hp)]

theorem createBinsGo_keys (w : Int) (fx : Bool) :
    ∀ (chrData : List (String × Int)) (c0 : Nat) dict total,
      createBinsGo w fx chrData c0 = .ok (dict, total) →
      dict.map Prod.fst = chrData.map Prod.fst := by
  intro chrData
  induction chrData with
  | nil =>
    intro c0 dict total h
    simp only [createBinsGo, Except.ok.injEq, Prod.mk.injEq] at h
    simp [← h.1]
  | cons hd rest ih =>
    obtain ⟨name, len⟩ := hd
    intro c0 dict total h
    simp only [createBinsGo] at h
    split at h
    · simp at h
    · rename_i cb heq
      split at h
      · simp at h
      · rename_i dict2 total2 heq2
        simp only [Except.ok.injEq, Prod.mk.injEq] at h
        rw [← h.1]
        simp [ih (c0 + cb.count) dict2 total2 heq2]

theorem createBins_ok {chrData : List (String × Int)} {w : Int} {fx : Bool}
    {gb : GenomeBin} (h : createBins chrData w fx = .ok gb) :
    createBinsGo w fx chrData 0 = .ok (gb.binDict, gb.binCount) := by
  unfold createBins at h
  split at h
  · simp at h
  · rename_i dict total heq
    simp only [Except.ok.injEq] at h
    subst h
    exact heq

/-! ### Behaviour of `findBinIndex` -/

theorem findBinIndex_nochr {chrData : List (String × Int)} {w : Int} {fx : Bool}
    {gb : GenomeBin} (hok : createBins chrData w fx = .ok gb) (chrom : String)
    (hnm : chrom ∉ chrData.map Prod.fst) (p : Nat) :
    findBinIndex gb chrom p = .nochr := by
  have hkeys := createBinsGo_keys w fx chrData 0 gb.binDict gb.binCount
    (createBins_ok hok)
  have hlk : gb.binDict.lookup chrom = none := by
    refine lookup_none_of chrom gb.binDict fun pr hpr hc => hnm ?_
    rw [← hkeys]
    exact hc ▸ List.mem_map_of_mem Prod.fst hpr
  simp [findBinIndex, hlk]

theorem findBinIndex_var_found {chrData : List (String × Int)} {w : Int}
    {gb : GenomeBin} (hnd : (chrData.map Prod.fst).Nodup) (hw : 1 ≤ w)
    (hok : createBins chrData w false = .ok gb)
    {chrom : String} {L : Int} (hmem : (chrom, L) ∈ chrData) (hL : 1 ≤ L)
    (hL32 : L < 4294967296) {p : Nat} (hp1 : 1 ≤ p) (hpL : (p : Int) ≤ L) :
    ∃ i, findBinIndex gb chrom p = .index i ∧ i < gb.binCount := by
  obtain ⟨c1, cb, hcb, hlk, hct⟩ := createBinsGo_lookup w false chrom L chrData
    0 gb.binDict gb.binCount hnd (createBins_ok hok) hmem
  obtain ⟨ws, hw1, hsum, hlen, heq⟩ := chrBins_var w L c1 hw hL
  rw [heq] at hcb
  have hcb2 := (Except.ok.injEq _ _).mp hcb
  subst hcb2
  have hp32 : p < 4294967296 := by
    have : (p : Int) < 4294967296 := lt_of_le_of_lt hpL hL32
    exact_mod_cast this
  have hmod : p % 4294967296 = p := Nat.mod_eq_of_lt hp32
  obtain ⟨hk, hple, hsle⟩ := cumsumFrom_findIdx ws 0 (p : Int) hw1
    (by exact_mod_cast hp1) (by rw [hsum, zero_add]; exact hpL) _ rfl
  set k := (cumsumFrom 0 ws).findIdx (fun e => decide ((p : Int) ≤ e)) with hkdef
  have hlene : (cumsum ws).length = ws.length := cumsum_length ws
  have hkend : k < (cumsum ws).length := by rw [hlene]; exact hk
  have hkstart : k <
      (List.zipWith (fun e wd => e - wd + 1) (cumsum ws) ws).length := by
    rw [List.length_zipWith, hlene, min_self]; exact hk
  have hstart : (List.zipWith (fun e wd => e - wd + 1) (cumsum ws) ws)[k]? =
      some ((cumsum ws).getD k 0 - ws.getD k 0 + 1) := by
    rw [List.getElem?_eq_getElem hkstart, List.getElem_zipWith,
      List.getD_eq_getElem _ _ hkend, List.getD_eq_getElem _ _ hk]
  have hkidx : k < (List.range' c1 ws.length).length := by
    rw [List.length_range']; exact hk
  have hindex : (List.range' c1 ws.length)[k]? = some (c1 + k) := by
    rw [List.getElem?_eq_getElem hkidx, List.getElem_range', one_mul]
  have hct2 : c1 + ws.length ≤ gb.binCount := by simpa using hct
  refine ⟨c1 + k, ?_, by omega⟩
  simp only [findBinIndex, hmod, hlk, cumsum] at *
  rw [hstart, hindex]
  simp only [if_pos hsle]

theorem findBinIndex_var_nobin {chrData : List (String × Int)} {w : Int}
    {gb : GenomeBin} (hnd : (chrData.map Prod.fst).Nodup) (hw : 1 ≤ w)
    (hok : createBins chrData w false = .ok gb)
    {chrom : String} {L : Int} (hmem : (chrom, L) ∈ chrData) (hL : 1 ≤ L)
    {p : Nat} (hcase : p = 0 ∨ ((L : Int) < p ∧ p < 4294967296)) :
    findBinIndex gb chrom p = .nobin := by
  obtain ⟨c1, cb, hcb, hlk, hct⟩ := createBinsGo_lookup w false chrom L chrData
    0 gb.binDict gb.binCount hnd (createBins_ok hok) hmem
  obtain ⟨ws, hw1, hsum, hlen, heq⟩ := chrBins_var w L c1 hw hL
  rw [heq] at hcb
  have hcb2 := (Except.ok.injEq _ _).mp hcb
  subst hcb2
  rcases hcase with rfl | ⟨hgt, hp32⟩
  · have hlen1 : 1 ≤ ws.length := by
      rw [hlen]
      have := iceil_pos (show (0:ℤ) < w by omega) hL
      omega
    cases ws with
    | nil => simp at hlen1
    | cons x xs =>
      have hx1 : 1 ≤ x := hw1 x (List.mem_cons_self x xs)
      have hdec : decide ((0 : Int) ≤ 0 + x) = true := by
        simp only [decide_eq_true_eq]; omega
      have hno : ¬(0 + x - x + 1 ≤ (0 : Int)) := by omega
      simp only [findBinIndex, hlk, cumsum, cumsumFrom, Nat.zero_mod,
        Nat.cast_zero, List.zipWith_cons_cons, List.findIdx_cons, hdec,
        cond_true, List.getElem?_cons_zero, List.length_cons,
        List.range'_succ, if_neg hno]
  · have hmod : p % 4294967296 = p := Nat.mod_eq_of_lt hp32
    have hall : ∀ e ∈ cumsumFrom 0 ws, e ≤ L := by
      intro e he
      have := cumsumFrom_mem_le 0 ws (fun x hx => by have := hw1 x hx; omega) e he
      omega
    have hfi : (cumsumFrom 0 ws).findIdx (fun e => decide ((p : Int) ≤ e)) =
        (cumsumFrom 0 ws).length := by
      refine findIdx_eq_length_of _ _ fun e he => ?_
      have := hall e he
      simp only [decide_eq_false_iff_not]
      omega
    have hslen : (List.zipWith (fun e wd => e - wd + 1) (cumsum ws) ws).length ≤
        (cumsumFrom 0 ws).length := by
      rw [List.length_zipWith, cumsum_length, min_self, cumsumFrom_length]
    have hnone : (List.zipWith (fun e wd => e - wd + 1) (cumsum ws) ws)[
        (cumsumFrom 0 ws).findIdx (fun e => decide ((p : Int) ≤ e))]? = none := by
      rw [hfi]
      exact List.getElem?_eq_none hslen
    simp only [findBinIndex, hlk, cumsum, hmod] at *
    rw [hnone]

/-! ### Algebra of `matrixProcess` -/

theorem bump_bump (m : Nat → Nat → Nat) (i j x y : Nat) :
    bump (bump m i j) j i x y =
      m x y + (if x = i ∧ y = j then 1 else 0) +
        (if x = j ∧ y = i then 1 else 0) := by
  unfold bump
  split_ifs <;> omega

theorem MState.ext2 {a b : MState} (hm : ∀ x y, a.matrix x y = b.matrix x y)
    (h1 : a.total = b.total) (h2 : a.nochr = b.nochr) (h3 : a.nobin = b.nobin)
    (h4 : a.accepted = b.accepted) : a = b := by
  cases a; cases b
  simp only [MState.mk.injEq]
  exact ⟨funext fun x => funext fun y => hm x y, h1, h2, h3, h4⟩

theorem MState.add_zero (s : MState) : MState.add s zeroMState = s :=
  MState.ext2 (fun _ _ => rfl) rfl rfl rfl rfl

theorem MState.zero_add (s : MState) : MState.add zeroMState s = s := by
  refine MState.ext2 (fun x y => ?_) ?_ ?_ ?_ ?_ <;>
    simp [MState.add, zeroMState]

theorem MState.add_assoc (a b c : MState) :
    MState.add (MState.add a b) c = MState.add a (MState.add b c) := by
  refine MState.ext2 (fun x y => ?_) ?_ ?_ ?_ ?_ <;> simp [MState.add] <;> omega

theorem MState.add_comm (a b : MState) : MState.add a b = MState.add b a := by
  refine MState.ext2 (fun x y => ?_) ?_ ?_ ?_ ?_ <;> simp [MState.add] <;> omega

theorem step_add (gb : GenomeBin) (s t : MState) (r : FragPair) :
    matrixProcessStep gb (MState.add s t) r =
      MState.add s (matrixProcessStep gb t r) := by
  unfold matrixProcessStep
  cases h1 : findBinIndex gb r.1.1 r.1.2 with
  | index i =>
    cases h2 : findBinIndex gb r.2.1 r.2.2 with
    | index j =>
      refine MState.ext2 (fun x y => ?_) ?_ ?_ ?_ ?_ <;>
        simp only [MState.add, bump_bump] <;> omega
    | nochr =>
      refine MState.ext2 (fun x y => ?_) ?_ ?_ ?_ ?_ <;>
        simp only [MState.add] <;> omega
    | nobin =>
      refine MState.ext2 (fun x y => ?_) ?_ ?_ ?_ ?_ <;>
        simp only [MState.add] <;> omega
  | nochr =>
    refine MState.ext2 (fun x y => ?_) ?_ ?_ ?_ ?_ <;>
      simp only [MState.add] <;> omega
  | nobin =>
    refine MState.ext2 (fun x y => ?_) ?_ ?_ ?_ ?_ <;>
      simp only [MState.add] <;> omega

theorem step_decomp (gb : GenomeBin) (s : MState) (r : FragPair) :
    matrixProcessStep gb s r =
      MState.add s (matrixProcessStep gb zeroMState r) := by
  have h := step_add gb s zeroMState r
  rwa [MState.add_zero] at h

theorem step_comm (gb : GenomeBin) (s : MState) (a b : FragPair) :
    matrixProcessStep gb (matrixProcessStep gb s a) b =
      matrixProcessStep gb (matrixProcessStep gb s b) a := by
  rw [step_decomp gb s a, step_add, step_decomp gb s b, step_add,
    step_decomp gb (matrixProcessStep gb zeroMState a) b,
    step_decomp gb (matrixProcessStep gb zeroMState b) a,
    MState.add_comm (matrixProcessStep gb zeroMState a)]

theorem process_from (gb : GenomeBin) (l : List FragPair) :
    ∀ st : MState, l.foldl (matrixProcessStep gb) st =
      MState.add st (matrixProcess gb l) := by
  induction l with
  | nil => intro st; simp [matrixProcess, MState.add_zero]
  | cons r l ih =>
    intro st
    have h1 : matrixProcess gb (r :: l) =
        MState.add (matrixProcessStep gb zeroMState r) (matrixProcess gb l) := by
      unfold matrixProcess
      rw [List.foldl_cons, ih (matrixProcessStep gb zeroMState r)]
      rfl
    rw [List.foldl_cons, ih (matrixProcessStep gb st r), h1,
      step_decomp gb st r, MState.add_assoc]

theorem process_perm (gb : GenomeBin) {l1 l2 : List FragPair}
    (hp : l1.Perm l2) :
    ∀ st : MState, l1.foldl (matrixProcessStep gb) st =
      l2.foldl (matrixProcessStep gb) st := by
  induction hp with
  | nil => intro _; rfl
  | cons x _ ih => intro st; rw [List.foldl_cons, List.foldl_cons, ih]
  | swap x y l =>
    intro st
    rw [List.foldl_cons, List.foldl_cons, List.foldl_cons, List.foldl_cons,
      step_comm]
  | trans _ _ ih1 ih2 => intro st; rw [ih1, ih2]

theorem mergeResults_eq_foldl (l : List MState) :
    mergeResults l = l.foldl MState.add zeroMState := by
  cases l with
  | nil => rfl
  | cons r rest => simp [mergeResults, MState.zero_add]

theorem foldl_add_from (l : List MState) :
    ∀ a : MState, l.foldl MState.add a =
      MState.add a (l.foldl MState.add zeroMState) := by
  induction l with
  | nil => intro a; simp [MState.add_zero]
  | cons r l ih =>
    intro a
    rw [List.foldl_cons, List.foldl_cons, ih (MState.add a r),
      ih (MState.add zeroMState r), MState.zero_add, MState.add_assoc]

theorem process_join (gb : GenomeBin) (shards : List (List FragPair)) :
    matrixProcess gb shards.flatten =
      (shards.map (matrixProcess gb)).foldl MState.add zeroMState := by
  induction shards with
  | nil => rfl
  | cons s rest ih =>
    rw [List.flatten_cons, List.map_cons, List.foldl_cons, MState.zero_add,
      foldl_add_from, ← ih]
    unfold matrixProcess
    rw [List.foldl_append, process_from gb rest.flatten]
    rfl

theorem process_symm (gb : GenomeBin) (records : List FragPair) :
    ∀ st : MState, (∀ x y, st.matrix x y = st.matrix y x) →
      ∀ x y, (records.foldl (matrixProcessStep gb) st).matrix x y =
        (records.foldl (matrixProcessStep gb) st).matrix y x := by
  induction records with
  | nil => intro st hs; exact hs
  | cons r l ih =>
    intro st hs
    rw [List.foldl_cons]
    refine ih _ fun x y => ?_
    unfold matrixProcessStep
    cases h1 : findBinIndex gb r.1.1 r.1.2 with
    | index i =>
      cases h2 : findBinIndex gb r.2.1 r.2.2 with
      | index j =>
        simp only [bump_bump]
        have := hs x y
        split_ifs <;> omega
      | nochr => exact hs x y
      | nobin => exact hs x y
    | nochr => exact hs x y
    | nobin => exact hs x y

/-! ### Region sums and low-bin masks -/

theorem colSums_untouched (mat2 : Nat → Nat → Nat) :
    ∀ (regions : List (String × List Nat)) (init : Nat → Nat) (b : Nat),
      (∀ r ∈ regions, b ∉ r.2) →
      regions.foldl (fun bs r => assignRegionSums mat2 r.2 bs) init b = init b := by
  intro regions
  induction regions with
  | nil => intro init b _; rfl
  | cons r0 rest ih =>
    intro init b hb
    rw [List.foldl_cons, ih _ b fun r hr => hb r (List.mem_cons_of_mem _ hr)]
    unfold assignRegionSums
    rw [if_neg (hb r0 (List.mem_cons_self _ _))]

theorem colSums_of_disjoint (mat2 : Nat → Nat → Nat) :
    ∀ (regions : List (String × List Nat)) (init : Nat → Nat)
      (rg : String × List Nat) (b : Nat),
      rg ∈ regions → b ∈ rg.2 →
      List.Pairwise (fun r1 r2 => ∀ x, x ∈ r1.2 → x ∉ r2.2) regions →
      regions.foldl (fun bs r => assignRegionSums mat2 r.2 bs) init b =
        (rg.2.map (fun j => mat2 b j)).sum := by
  intro regions
  induction regions with
  | nil => intro _ _ _ hmem; simp at hmem
  | cons r0 rest ih =>
    intro init rg b hmem hb hp
    obtain ⟨hp1, hp2⟩ := List.pairwise_cons.mp hp
    rcases List.mem_cons.mp hmem with rfl | hmem2
    · rw [List.foldl_cons,
        colSums_untouched mat2 rest _ b fun r hr => hp1 r hr b hb]
      unfold assignRegionSums
      rw [if_pos hb]
    · rw [List.foldl_cons]
      exact ih _ rg b hmem2 hb hp2

theorem extractLowBins_eq_spec_of_disjoint (regions : List (String × List Nat))
    (mats : List (Nat → Nat → Nat)) (minCount : Nat) (rmDiag : Bool)
    (hdis : List.Pairwise (fun r1 r2 => ∀ x, x ∈ r1.2 → x ∉ r2.2) regions) :
    extractLowBins regions mats minCount rmDiag =
      specRegionLowMask regions mats minCount rmDiag := by
  unfold extractLowBins specRegionLowMask
  refine List.map_congr_left fun rg hrg => ?_
  refine congrArg _ ?_
  refine List.map_congr_left fun b hb => ?_
  have hlists : (mats.map (colSumsMatrix regions rmDiag)).map (fun s => s b) =
      mats.map (fun mat =>
        ((if rmDiag then fillDiag0 mat else mat) |> fun inMatrix =>
          (rg.2.map (fun j => inMatrix b j)).sum)) := by
    rw [List.map_map]
    refine List.map_congr_left fun mat _ => ?_
    unfold colSumsMatrix
    exact colSums_of_disjoint _ regions _ rg b hrg hb hdis
  simp only [Function.comp] at hlists ⊢
  rw [hlists]

/-! ### Rounding to 8 decimals -/

theorem round8_close (q : ℚ) : |q - round8 q| ≤ 1 / 200000000 := by
  unfold round8
  have h := abs_sub_round (q * 100000000)
  have h2 : q - (round (q * 100000000) : ℤ) / 100000000 =
      (q * 100000000 - (round (q * 100000000) : ℤ)) / 100000000 := by ring
  rw [h2, abs_div, abs_of_pos (by norm_num : (0:ℚ) < 100000000)]
  calc |q * 100000000 - ((round (q * 100000000) : ℤ) : ℚ)| / 100000000
      ≤ (1 / 2) / 100000000 := by
        exact (div_le_div_iff_of_pos_right (by norm_num)).mpr h
    _ = 1 / 200000000 := by norm_num

/-! ### Negative and zero widths in `createBins` -/

theorem fmod_nonpos_of_neg {L w : Int} (hL : 0 ≤ L) (hw : w < 0) :
    L.fmod w ≤ 0 := by
  obtain ⟨m, rfl⟩ := Int.eq_ofNat_of_zero_le hL
  obtain ⟨n, rfl⟩ := Int.eq_negSucc_of_lt_zero hw
  cases m with
  | zero => simp
  | succ m2 =>
    show Int.fmod (Int.ofNat (Nat.succ m2)) (Int.negSucc n) ≤ 0
    rw [Int.fmod, Int.subNatNat_eq_coe]
    have := Nat.mod_lt m2 (Nat.succ_pos n)
    omega

theorem fdiv_nonneg_of_neg {a b : Int} (ha : a < 0) (hb : b < 0) :
    0 ≤ a.fdiv b := by
  obtain ⟨m, rfl⟩ := Int.eq_negSucc_of_lt_zero ha
  obtain ⟨n, rfl⟩ := Int.eq_negSucc_of_lt_zero hb
  show 0 ≤ Int.fdiv (Int.negSucc m) (Int.negSucc n)
  rw [Int.fdiv]
  exact Int.ofNat_nonneg _

theorem chrBins_fixed_neg (w L : Int) (c0 : Nat) (hw : w < 0) (hL0 : 0 ≤ L) :
    chrBins w true L c0 = .ok ⟨[], [], [], 0⟩ := by
  rw [chrBins_fixed w L c0 (by omega)]
  have hm : Int.fmod L w ≤ 0 := fmod_nonpos_of_neg hL0 hw
  have hh : Int.fdiv (Int.fmod L w) 2 ≤ 0 := by
    rw [Int.fdiv_eq_ediv _ (by omega)]
    omega
  have harange : arangeI (Int.fdiv (Int.fmod L w) 2 + w) (L + 1) w = [] := by
    unfold arangeI
    have hice : iceil (L + 1 - (Int.fdiv (Int.fmod L w) 2 + w)) w ≤ 0 := by
      unfold iceil
      have hneg : -(L + 1 - (Int.fdiv (Int.fmod L w) 2 + w)) < 0 := by omega
      have := fdiv_nonneg_of_neg hneg hw
      omega
    rw [show (iceil (L + 1 - (Int.fdiv (Int.fmod L w) 2 + w)) w).toNat = 0 from
      by omega]
    rfl
  rw [harange]
  rfl

theorem createBinsGo_fixed_neg (w : Int) (hw : w < 0) :
    ∀ (chrData : List (String × Int)) (c0 : Nat), (∀ e ∈ chrData, 0 ≤ e.2) →
      createBinsGo w true chrData c0 =
        .ok (chrData.map (fun e => (e.1, (⟨[], [], [], 0⟩ : ChrBins))), c0) := by
  intro chrData
  induction chrData with
  | nil => intro c0 _; rfl
  | cons hd tl ih =>
    intro c0 hall
    obtain ⟨name, L⟩ := hd
    have h1 : chrBins w true L c0 = .ok ⟨[], [], [], 0⟩ :=
      chrBins_fixed_neg w L c0 hw (hall (name, L) (List.mem_cons_self _ _))
    simp only [createBinsGo, h1,
      ih (c0 + ChrBins.count ⟨[], [], [], 0⟩)
        fun e he => hall e (List.mem_cons_of_mem _ he)]
    rfl

theorem createBins_zero_width (chrData : List (String × Int)) (fx : Bool)
    (hne : chrData ≠ []) :
    createBins chrData 0 fx = .error "ZeroDivisionError" := by
  cases chrData with
  | nil => exact absurd rfl hne
  | cons hd tl =>
    obtain ⟨name, L⟩ := hd
    cases fx <;> simp [createBins, createBinsGo, chrBins]

/-! ### Claim theorems -/

/-- C4: the accumulated contact matrix is symmetric after processing any input
stream of coordinate-pair records: one processing step of
`genomeBin.matrixProcess` preserves symmetry of the worker matrix (including
for records whose two ends map to the same bin), and the matrix accumulated
from the zero matrix over any stream is symmetric. -/
theorem c4_matrix_always_symmetric :
    (∀ (gb : GenomeBin) (st : MState) (rec : FragPair),
      (∀ x y, st.matrix x y = st.matrix y x) →
      ∀ x y, (matrixProcessStep gb st rec).matrix x y =
        (matrixProcessStep gb st rec).matrix y x) ∧
    (∀ (gb : GenomeBin) (records : List FragPair) (x y : Nat),
      (matrixProcess gb records).matrix x y =
        (matrixProcess gb records).matrix y x) := by
  constructor
  · intro gb st rec hs
    have h := process_symm gb [rec] st hs
    simpa using h
  · intro gb records x y
    exact process_symm gb records zeroMState (fun _ _ => rfl) x y

/-- C4 witness: the symmetry-preservation part applied to a concrete state and
record. -/
theorem c4_matrix_always_symmetric_witness :
    (matrixProcessStep ⟨[], 0⟩ zeroMState (("a", 1), ("a", 1))).matrix 0 1 =
      (matrixProcessStep ⟨[], 0⟩ zeroMState (("a", 1), ("a", 1))).matrix 1 0 :=
  c4_matrix_always_symmetric.1 ⟨[], 0⟩ zeroMState (("a", 1), ("a", 1))
    (fun _ _ => rfl) 0 1

/-- C5: matrix accumulation is merge-order-independent: for every stream and
every partition of its records into worker shards (in any order), summing the
per-worker matrices and counters element-wise (`generateMatrix`'s merge loop)
equals processing the whole stream in one worker. -/
theorem c5_merge_order_independent (gb : GenomeBin)
    (shards : List (List FragPair)) (recs : List FragPair)
    (h : shards.flatten.Perm recs) :
    mergeResults (shards.map (matrixProcess gb)) = matrixProcess gb recs := by
  rw [mergeResults_eq_foldl, ← process_join]
  unfold matrixProcess
  exact process_perm gb h zeroMState

/-- C5 witness: two single-record shards merged in the opposite order of the
stream. -/
theorem c5_merge_order_independent_witness :
    ([[(("a", 1), ("a", 2))], [(("b", 3), ("b", 4))]] :
        List (List FragPair)).flatten.Perm
      [(("b", 3), ("b", 4)), (("a", 1), ("a", 2))] ∧
    mergeResults (([[(("a", 1), ("a", 2))], [(("b", 3), ("b", 4))]] :
        List (List FragPair)).map (matrixProcess ⟨[], 0⟩)) =
      matrixProcess ⟨[], 0⟩ [(("b", 3), ("b", 4)), (("a", 1), ("a", 2))] :=
  ⟨List.Perm.swap _ _ _,
    c5_merge_order_independent ⟨[], 0⟩ _ _ (List.Perm.swap _ _ _)⟩

/-- C1 counterexample: with the spec's own end-to-end genome (chr1 of length
10, chr2 of length 7, nominal width 5, variable mode), processing the
self-pair `(chr1,3,chr1,3)` leaves `M[0][0] = 2`: `matrixProcess` runs both
symmetric increments on the same diagonal cell, so the diagonal is incremented
by 2, not by 1 as the claim states. -/
theorem c1_counterexample :
    (createBins [("chr1", 10), ("chr2", 7)] 5 false).map
        (fun gb => (matrixProcess gb [(("chr1", 3), ("chr1", 3))]).matrix 0 0) =
      .ok 2 ∧ (2 : Nat) ≠ 1 := by
  constructor
  · rfl
  · decide

/-- C1 (amended): for a record whose ends resolve to bins `i` and `j`: if
`i ≠ j` then `M[i][j]` and `M[j][i]` are each incremented by exactly 1; if
`i = j` the diagonal entry `M[i][i]` is incremented by 2 (both symmetric
updates land on the same cell); all other entries are unchanged. -/
theorem c1_pair_increments (gb : GenomeBin) (st : MState) (rec : FragPair)
    (i j : Nat) (h : pairIndices gb rec = some (i, j)) :
    (i ≠ j →
      (matrixProcessStep gb st rec).matrix i j = st.matrix i j + 1 ∧
      (matrixProcessStep gb st rec).matrix j i = st.matrix j i + 1) ∧
    (i = j → (matrixProcessStep gb st rec).matrix i i = st.matrix i i + 2) ∧
    (∀ x y, ¬(x = i ∧ y = j) → ¬(x = j ∧ y = i) →
      (matrixProcessStep gb st rec).matrix x y = st.matrix x y) := by
  unfold pairIndices at h
  cases h1 : findBinIndex gb rec.1.1 rec.1.2 with
  | index i0 =>
    cases h2 : findBinIndex gb rec.2.1 rec.2.2 with
    | index j0 =>
      simp only [h1, h2, Option.some.injEq, Prod.mk.injEq] at h
      obtain ⟨rfl, rfl⟩ := h
      unfold matrixProcessStep
      rw [h1, h2]
      refine ⟨fun hne => ⟨?_, ?_⟩, fun heq => ?_, fun x y hx hy => ?_⟩
      · show bump (bump st.matrix i0 j0) j0 i0 i0 j0 = st.matrix i0 j0 + 1
        rw [bump_bump, if_pos ⟨rfl, rfl⟩, if_neg (fun hc => hne hc.1)]
      · show bump (bump st.matrix i0 j0) j0 i0 j0 i0 = st.matrix j0 i0 + 1
        rw [bump_bump, if_neg (fun hc => hne hc.2), if_pos ⟨rfl, rfl⟩]
      · subst heq
        show bump (bump st.matrix i0 i0) i0 i0 i0 i0 = st.matrix i0 i0 + 2
        rw [bump_bump, if_pos ⟨rfl, rfl⟩]
      · show bump (bump st.matrix i0 j0) j0 i0 x y = st.matrix x y
        rw [bump_bump, if_neg hx, if_neg hy]
        omega
    | nochr => simp [h1, h2] at h
    | nobin => simp [h1, h2] at h
  | nochr => simp [h1] at h
  | nobin => simp [h1] at h

/-- C1 witness: the amended statement applied to the spec's pair
`(chr1,8,chr2,2)`, which resolves to the distinct bins 1 and 2 of the
end-to-end genome. -/
theorem c1_pair_increments_witness :
    pairIndices ⟨[("chr1", ⟨[1, 6], [5, 10], [0, 1], 2⟩),
        ("chr2", ⟨[1, 5], [4, 7], [2, 3], 2⟩)], 4⟩
      (("chr1", 8), ("chr2", 2)) = some (1, 2) ∧
    ((1 ≠ 2 →
      (matrixProcessStep ⟨[("chr1", ⟨[1, 6], [5, 10], [0, 1], 2⟩),
          ("chr2", ⟨[1, 5], [4, 7], [2, 3], 2⟩)], 4⟩ zeroMState
        (("chr1", 8), ("chr2", 2))).matrix 1 2 = zeroMState.matrix 1 2 + 1 ∧
      (matrixProcessStep ⟨[("chr1", ⟨[1, 6], [5, 10], [0, 1], 2⟩),
          ("chr2", ⟨[1, 5], [4, 7], [2, 3], 2⟩)], 4⟩ zeroMState
        (("chr1", 8), ("chr2", 2))).matrix 2 1 = zeroMState.matrix 2 1 + 1) ∧
    (1 = 2 →
      (matrixProcessStep ⟨[("chr1", ⟨[1, 6], [5, 10], [0, 1], 2⟩),
          ("chr2", ⟨[1, 5], [4, 7], [2, 3], 2⟩)], 4⟩ zeroMState
        (("chr1", 8), ("chr2", 2))).matrix 1 1 = zeroMState.matrix 1 1 + 2) ∧
    (∀ x y, ¬(x = 1 ∧ y = 2) → ¬(x = 2 ∧ y = 1) →
      (matrixProcessStep ⟨[("chr1", ⟨[1, 6], [5, 10], [0, 1], 2⟩),
          ("chr2", ⟨[1, 5], [4, 7], [2, 3], 2⟩)], 4⟩ zeroMState
        (("chr1", 8), ("chr2", 2))).matrix x y = zeroMState.matrix x y)) :=
  ⟨by decide, c1_pair_increments _ zeroMState (("chr1", 8), ("chr2", 2)) 1 2
    (by decide)⟩

/-- C6: for a record with an unresolvable end, `matrixProcess` leaves the
matrix and the accepted counter unchanged, counts the record in the total, and
increments exactly the rejection counter keyed by the failure sentinel
(`'nochr'` → `logData[1]`, `'nobin'` → `logData[2]`); the loop then continues
with the next queue record (the step is a total function folded over the
stream), and the `raise ValueError` guard is unreachable because
`findBinIndex` returns no fourth shape of result. -/
theorem c6_rejection_counting (gb : GenomeBin) (st : MState) (rec : FragPair)
    (reason : BinResult) (h : pairFailure gb rec = some reason) :
    (∀ x y, (matrixProcessStep gb st rec).matrix x y = st.matrix x y) ∧
    (matrixProcessStep gb st rec).accepted = st.accepted ∧
    (matrixProcessStep gb st rec).total = st.total + 1 ∧
    ((reason = .nochr ∧ (matrixProcessStep gb st rec).nochr = st.nochr + 1 ∧
        (matrixProcessStep gb st rec).nobin = st.nobin) ∨
      (reason = .nobin ∧ (matrixProcessStep gb st rec).nobin = st.nobin + 1 ∧
        (matrixProcessStep gb st rec).nochr = st.nochr)) := by
  unfold pairFailure at h
  cases h1 : findBinIndex gb rec.1.1 rec.1.2 with
  | index i0 =>
    cases h2 : findBinIndex gb rec.2.1 rec.2.2 with
    | index j0 => simp [h1, h2] at h
    | nochr =>
      simp only [h1, h2, Option.some.injEq] at h
      unfold matrixProcessStep
      rw [h1, h2]
      exact ⟨fun x y => rfl, rfl, rfl, Or.inl ⟨h.symm, rfl, rfl⟩⟩
    | nobin =>
      simp only [h1, h2, Option.some.injEq] at h
      unfold matrixProcessStep
      rw [h1, h2]
      exact ⟨fun x y => rfl, rfl, rfl, Or.inr ⟨h.symm, rfl, rfl⟩⟩
  | nochr =>
    simp only [h1, Option.some.injEq] at h
    unfold matrixProcessStep
    rw [h1]
    exact ⟨fun x y => rfl, rfl, rfl, Or.inl ⟨h.symm, rfl, rfl⟩⟩
  | nobin =>
    simp only [h1, Option.some.injEq] at h
    unfold matrixProcessStep
    rw [h1]
    exact ⟨fun x y => rfl, rfl, rfl, Or.inr ⟨h.symm, rfl, rfl⟩⟩

/-- C6 witness: the spec's unresolvable pair `(chrX,1,chr1,1)` on the
end-to-end genome increments only the `'nochr'` counter. -/
theorem c6_rejection_counting_witness :
    pairFailure ⟨[("chr1", ⟨[1, 6], [5, 10], [0, 1], 2⟩),
        ("chr2", ⟨[1, 5], [4, 7], [2, 3], 2⟩)], 4⟩
      (("chrX", 1), ("chr1", 1)) = some .nochr ∧
    ((∀ x y, (matrixProcessStep ⟨[("chr1", ⟨[1, 6], [5, 10], [0, 1], 2⟩),
          ("chr2", ⟨[1, 5], [4, 7], [2, 3], 2⟩)], 4⟩ zeroMState
        (("chrX", 1), ("chr1", 1))).matrix x y = zeroMState.matrix x y) ∧
    (matrixProcessStep ⟨[("chr1", ⟨[1, 6], [5, 10], [0, 1], 2⟩),
        ("chr2", ⟨[1, 5], [4, 7], [2, 3], 2⟩)], 4⟩ zeroMState
      (("chrX", 1), ("chr1", 1))).accepted = zeroMState.accepted ∧
    (matrixProcessStep ⟨[("chr1", ⟨[1, 6], [5, 10], [0, 1], 2⟩),
        ("chr2", ⟨[1, 5], [4, 7], [2, 3], 2⟩)], 4⟩ zeroMState
      (("chrX", 1), ("chr1", 1))).total = zeroMState.total + 1 ∧
    ((BinResult.nochr = .nochr ∧
        (matrixProcessStep ⟨[("chr1", ⟨[1, 6], [5, 10], [0, 1], 2⟩),
            ("chr2", ⟨[1, 5], [4, 7], [2, 3], 2⟩)], 4⟩ zeroMState
          (("chrX", 1), ("chr1", 1))).nochr = zeroMState.nochr + 1 ∧
        (matrixProcessStep ⟨[("chr1", ⟨[1, 6], [5, 10], [0, 1], 2⟩),
            ("chr2", ⟨[1, 5], [4, 7], [2, 3], 2⟩)], 4⟩ zeroMState
          (("chrX", 1), ("chr1", 1))).nobin = zeroMState.nobin) ∨
      (BinResult.nochr = .nobin ∧
        (matrixProcessStep ⟨[("chr1", ⟨[1, 6], [5, 10], [0, 1], 2⟩),
            ("chr2", ⟨[1, 5], [4, 7], [2, 3], 2⟩)], 4⟩ zeroMState
          (("chrX", 1), ("chr1", 1))).nobin = zeroMState.nobin + 1 ∧
        (matrixProcessStep ⟨[("chr1", ⟨[1, 6], [5, 10], [0, 1], 2⟩),
            ("chr2", ⟨[1, 5], [4, 7], [2, 3], 2⟩)], 4⟩ zeroMState
          (("chrX", 1), ("chr1", 1))).nochr = zeroMState.nochr))) :=
  ⟨by decide, c6_rejection_counting _ zeroMState (("chrX", 1), ("chr1", 1))
    .nochr (by decide)⟩

/-- C2 counterexample: fixed-width mode does not preserve total length: for a
chromosome of length 10 with fixed width 4 the bins are `2-5` and `6-9`, whose
lengths sum to 8, not 10 (`createBins` trims the remainder margins). -/
theorem c2_counterexample :
    (createBins [("chr1", 10)] 4 true).map
        (fun gb => (gb.binDict.lookup "chr1").map
          (fun cb => (List.zipWith (fun s e => e - s + 1) cb.starts cb.ends).sum)) =
      .ok (some 8) ∧ (8 : Int) ≠ 10 := by
  constructor
  · rfl
  · decide

/-- C2 (amended): bins built for a chromosome are always contiguous and
non-overlapping, but the total-length law depends on the mode.  In
variable-width mode the bin lengths sum exactly to the chromosome length, the
first bin starts at 1 and every bin end is at most the length (exact
partition).  In fixed-width mode every bin has width exactly `w` and there are
`⌊L / w⌋` of them, so the lengths sum to `L - L % w`: the remainder is left
uncovered, split between the two chromosome ends. -/
theorem c2_bin_coverage (w L : Int) (c0 : Nat) (hw : 1 ≤ w) (hL : 1 ≤ L) :
    (∀ cb, chrBins w false L c0 = .ok cb →
      (List.zipWith (fun s e => e - s + 1) cb.starts cb.ends).sum = L ∧
      cb.starts.getD 0 0 = 1 ∧
      (∀ e ∈ cb.ends, e ≤ L) ∧
      (∀ k, k + 1 < cb.ends.length →
        cb.starts.getD (k + 1) 0 = cb.ends.getD k 0 + 1)) ∧
    (∀ cb, chrBins w true L c0 = .ok cb →
      List.zipWith (fun s e => e - s + 1) cb.starts cb.ends =
        List.replicate (L / w).toNat w ∧
      (List.zipWith (fun s e => e - s + 1) cb.starts cb.ends).sum = L - L % w ∧
      (∀ k, k + 1 < cb.ends.length →
        cb.starts.getD (k + 1) 0 = cb.ends.getD k 0 + 1)) := by
  constructor
  · intro cb hcb
    obtain ⟨ws, hw1, hsum, hlen, heq⟩ := chrBins_var w L c0 hw hL
    rw [heq] at hcb
    have hcb2 := (Except.ok.injEq _ _).mp hcb
    subst hcb2
    have hlene : (cumsum ws).length = ws.length := cumsum_length ws
    refine ⟨?_, ?_, ?_, ?_⟩
    · show (List.zipWith (fun s e => e - s + 1)
        (List.zipWith (fun e wd => e - wd + 1) (cumsumFrom 0 ws) ws)
        (cumsumFrom 0 ws)).sum = L
      rw [lengths_eq_widths 0 ws]
      exact hsum
    · have hlen1 : 1 ≤ ws.length := by
        rw [hlen]
        have := iceil_pos (show (0:ℤ) < w by omega) hL
        omega
      cases ws with
      | nil => simp at hlen1
      | cons x xs =>
        show (List.zipWith (fun e wd => e - wd + 1)
          (cumsumFrom 0 (x :: xs)) (x :: xs)).getD 0 0 = 1
        rw [startEnd_head]
        omega
    · intro e he
      have := cumsumFrom_mem_le 0 ws (fun x hx => by have := hw1 x hx; omega) e he
      omega
    · intro k hk
      show (List.zipWith (fun e wd => e - wd + 1) (cumsumFrom 0 ws)
        ws).getD (k + 1) 0 = (cumsumFrom 0 ws).getD k 0 + 1
      exact startEnd_contig ws 0 k (by rw [← cumsumFrom_length 0 ws]; exact hk)
  · intro cb hcb
    rw [chrBins_fixed w L c0 (by omega)] at hcb
    have hcb2 := (Except.ok.injEq _ _).mp hcb
    subst hcb2
    have hcount : (arangeI (Int.fdiv (Int.fmod L w) 2 + w) (L + 1) w).length =
        (L / w).toNat := by
      rw [arangeI_length, fixed_count w L hw (by omega)]
    have hrep : List.zipWith (fun s e => e - s + 1)
        ((arangeI (Int.fdiv (Int.fmod L w) 2 + w) (L + 1) w).map
          (fun e => e - w + 1))
        (arangeI (Int.fdiv (Int.fmod L w) 2 + w) (L + 1) w) =
        List.replicate (L / w).toNat w := by
      rw [lengths_fixed, hcount]
    refine ⟨hrep, ?_, ?_⟩
    · rw [hrep, List.sum_replicate, nsmul_eq_mul,
        Int.toNat_of_nonneg (Int.ediv_nonneg (by omega) (by omega))]
      have hdm : w * (L / w) + L % w = L := Int.ediv_add_emod L w
      have hcm : (L / w) * w = w * (L / w) := mul_comm _ _
      linarith
    · intro k hk
      have hk2 : k + 1 < (arangeI (Int.fdiv (Int.fmod L w) 2 + w)
          (L + 1) w).length := hk
      have hk1 : k < (arangeI (Int.fdiv (Int.fmod L w) 2 + w)
          (L + 1) w).length := by omega
      have hmap : ((arangeI (Int.fdiv (Int.fmod L w) 2 + w) (L + 1) w).map
          (fun e => e - w + 1)).getD (k + 1) 0 =
          (arangeI (Int.fdiv (Int.fmod L w) 2 + w) (L + 1) w).getD (k + 1) 0
            - w + 1 := by
        rw [List.getD_eq_getElem _ _ (by simpa using hk2), List.getElem_map,
          List.getD_eq_getElem _ _ hk2]
      rw [hmap, arangeI_getD _ _ _ _ hk2, arangeI_getD _ _ _ _ hk1]
      push_cast
      ring

/-- C2 witness: the amended statement applied to the spec's chromosome of
length 7 with nominal width 5. -/
theorem c2_bin_coverage_witness :
    (1 : Int) ≤ 5 ∧ (1 : Int) ≤ 7 ∧
    ((∀ cb, chrBins 5 false 7 0 = .ok cb →
      (List.zipWith (fun s e => e - s + 1) cb.starts cb.ends).sum = 7 ∧
      cb.starts.getD 0 0 = 1 ∧
      (∀ e ∈ cb.ends, e ≤ 7) ∧
      (∀ k, k + 1 < cb.ends.length →
        cb.starts.getD (k + 1) 0 = cb.ends.getD k 0 + 1)) ∧
    (∀ cb, chrBins 5 true 7 0 = .ok cb →
      List.zipWith (fun s e => e - s + 1) cb.starts cb.ends =
        List.replicate ((7 : Int) / 5).toNat 5 ∧
      (List.zipWith (fun s e => e - s + 1) cb.starts cb.ends).sum =
        7 - (7 : Int) % 5 ∧
      (∀ k, k + 1 < cb.ends.length →
        cb.starts.getD (k + 1) 0 = cb.ends.getD k 0 + 1))) :=
  ⟨by decide, by decide, c2_bin_coverage 5 7 0 (by decide) (by decide)⟩

/-- C3 counterexample: in fixed-width mode the trimmed margin positions are
inside `[1, chromosomeLength]` but resolve to `'nobin'`: for chromosome
length 10 and fixed width 4 the first bin starts at 2, and position 1 answers
`'nobin'` although `1 ≤ 1 ≤ 10`. -/
theorem c3_counterexample :
    (createBins [("chr1", 10)] 4 true).map
        (fun gb => findBinIndex gb "chr1" 1) = .ok .nobin ∧
    (1 : Nat) ≤ 10 := by
  constructor
  · rfl
  · decide

/-- C3 (amended): for an index built in variable-width mode, `findBinIndex` is
total in the claimed sense: every position in `[1, chromosomeLength]` of a
present chromosome resolves to a valid global bin index (below `binCount`);
position 0 or a position beyond the chromosome length (below the `uint32`
wrap) answers `'nobin'`; an absent chromosome answers `'nochr'`.  (In
fixed-width mode the trimmed margin positions of `c3_counterexample` break the
first part.) -/
theorem c3_findBin_total_variable (chrData : List (String × Int)) (w : Int)
    (gb : GenomeBin) (hnd : (chrData.map Prod.fst).Nodup) (hw : 1 ≤ w)
    (hok : createBins chrData w false = .ok gb)
    (hlen : ∀ e ∈ chrData, 1 ≤ e.2 ∧ e.2 < 4294967296) :
    (∀ chrom L, (chrom, L) ∈ chrData →
      (∀ p : Nat, 1 ≤ p → (p : Int) ≤ L →
        ∃ i, findBinIndex gb chrom p = .index i ∧ i < gb.binCount) ∧
      (∀ p : Nat, p < 4294967296 → ((p : Int) < 1 ∨ L < (p : Int)) →
        findBinIndex gb chrom p = .nobin)) ∧
    (∀ chrom, chrom ∉ chrData.map Prod.fst → ∀ p : Nat,
      findBinIndex gb chrom p = .nochr) := by
  constructor
  · intro chrom L hmem
    obtain ⟨hL1, hL32⟩ := hlen (chrom, L) hmem
    constructor
    · intro p hp1 hpL
      exact findBinIndex_var_found hnd hw hok hmem hL1 hL32 hp1 hpL
    · intro p hp32 hcase
      refine findBinIndex_var_nobin hnd hw hok hmem hL1 ?_
      rcases hcase with h | h
      · left; omega
      · right; exact ⟨h, hp32⟩
  · intro chrom hnm p
    exact findBinIndex_nochr hok chrom hnm p

/-- C3 witness: the amended statement applied to a one-chromosome table of
length 10 with width 5 in variable mode. -/
theorem c3_findBin_total_variable_witness :
    (([("chr1", (10 : Int))].map Prod.fst).Nodup) ∧
    ((∀ chrom L, (chrom, L) ∈ [("chr1", (10 : Int))] →
      (∀ p : Nat, 1 ≤ p → (p : Int) ≤ L →
        ∃ i, findBinIndex ⟨[("chr1", ⟨[1, 6], [5, 10], [0, 1], 2⟩)], 2⟩
            chrom p = .index i ∧
          i < (⟨[("chr1", ⟨[1, 6], [5, 10], [0, 1], 2⟩)], 2⟩ :
            GenomeBin).binCount) ∧
      (∀ p : Nat, p < 4294967296 → ((p : Int) < 1 ∨ L < (p : Int)) →
        findBinIndex ⟨[("chr1", ⟨[1, 6], [5, 10], [0, 1], 2⟩)], 2⟩
          chrom p = .nobin)) ∧
    (∀ chrom, chrom ∉ [("chr1", (10 : Int))].map Prod.fst → ∀ p : Nat,
      findBinIndex ⟨[("chr1", ⟨[1, 6], [5, 10], [0, 1], 2⟩)], 2⟩
        chrom p = .nochr)) :=
  ⟨by decide, c3_findBin_total_variable [("chr1", (10 : Int))] 5
    ⟨[("chr1", ⟨[1, 6], [5, 10], [0, 1], 2⟩)], 2⟩ (by decide) (by decide)
    rfl (by decide)⟩

/-- C9 counterexample: a negative width is not rejected at all: with width
`-4` and a chromosome of length 10, `createBins` succeeds in both modes and
silently returns an index with zero bins, instead of failing with a
configuration error as the claim requires for every `width ≤ 0`. -/
theorem c9_counterexample :
    createBins [("chr1", 10)] (-4) true =
      .ok ⟨[("chr1", ⟨[], [], [], 0⟩)], 0⟩ ∧
    createBins [("chr1", 10)] (-4) false =
      .ok ⟨[("chr1", ⟨[], [], [], 0⟩)], 0⟩ := by
  constructor <;> rfl

/-- C9 (amended): `createBins` performs no width validation.  Width 0 fails,
but with an uncaught `ZeroDivisionError` from the first chromosome's
arithmetic (`int % 0` / `float / 0`) rather than a configuration error, and a
negative width in fixed-width mode is accepted and yields an index with zero
bins for every chromosome. -/
theorem c9_no_width_validation (chrData : List (String × Int)) (fx : Bool)
    (hne : chrData ≠ []) (hl : ∀ e ∈ chrData, 0 ≤ e.2) :
    createBins chrData 0 fx = .error "ZeroDivisionError" ∧
    ∀ w : Int, w < 0 →
      ∃ gb, createBins chrData w true = .ok gb ∧ gb.binCount = 0 ∧
        ∀ pr ∈ gb.binDict, pr.2.count = 0 := by
  refine ⟨createBins_zero_width chrData fx hne, ?_⟩
  intro w hwneg
  refine ⟨⟨chrData.map (fun e => (e.1, ⟨[], [], [], 0⟩)), 0⟩, ?_, rfl, ?_⟩
  · unfold createBins
    rw [createBinsGo_fixed_neg w hwneg chrData 0 hl]
  · intro pr hpr
    simp only [List.mem_map] at hpr
    obtain ⟨e, _, rfl⟩ := hpr
    rfl

/-- C9 witness: the amended statement applied to a one-chromosome table. -/
theorem c9_no_width_validation_witness :
    ([("chr1", (10 : Int))] ≠ []) ∧
    (createBins [("chr1", 10)] 0 true = .error "ZeroDivisionError" ∧
    ∀ w : Int, w < 0 →
      ∃ gb, createBins [("chr1", 10)] w true = .ok gb ∧ gb.binCount = 0 ∧
        ∀ pr ∈ gb.binDict, pr.2.count = 0) :=
  ⟨by decide, c9_no_width_validation [("chr1", 10)] true (by decide)
    (by decide)⟩

/-- C7 counterexample: with overlapping regions the mask is not computed from
each region's own intra-region sums: for regions `A = {0,1}` and `B = {1,2}`
on a symmetric matrix where bin 1 sums to 5 inside `A` but 9 inside `B`, and
`minCount = 7`, the later region's assignment `binSums[indices] = ...`
overwrites bin 1's sum, so region `A`'s mask is all-false although bin 1's
intra-`A` sum of 5 is strictly below 7. -/
theorem c7_counterexample :
    extractLowBins [("A", [0, 1]), ("B", [1, 2])]
        [fun i j => (([[5, 5, 0], [5, 0, 9], [0, 9, 9]].getD i []).getD j 0)]
        7 false =
      [("A", [false, false]), ("B", [false, false])] ∧
    specRegionLowMask [("A", [0, 1]), ("B", [1, 2])]
        [fun i j => (([[5, 5, 0], [5, 0, 9], [0, 9, 9]].getD i []).getD j 0)]
        7 false =
      [("A", [false, true]), ("B", [false, false])] ∧
    extractLowBins [("A", [0, 1]), ("B", [1, 2])]
        [fun i j => (([[5, 5, 0], [5, 0, 9], [0, 9, 9]].getD i []).getD j 0)]
        7 false ≠
      specRegionLowMask [("A", [0, 1]), ("B", [1, 2])]
        [fun i j => (([[5, 5, 0], [5, 0, 9], [0, 9, 9]].getD i []).getD j 0)]
        7 false := by
  refine ⟨by decide, by decide, by decide⟩

/-- C7 (amended): provided no bin index occurs in more than one region,
`extractLowBins` computes exactly the claim's mask: per region, each bin's
signal is its intra-region row sum (diagonal optionally zeroed first), and the
mask entry is true exactly when the minimum of that sum across all supplied
matrices is strictly below `minCount` (so an all-sufficient region gets an
all-false mask, and a bin with zero signal in one matrix is marked whenever
`minCount ≥ 1`). -/
theorem c7_low_bin_minimum_semantics (regions : List (String × List Nat))
    (mats : List (Nat → Nat → Nat)) (minCount : Nat) (rmDiag : Bool)
    (hdis : List.Pairwise (fun r1 r2 => ∀ x, x ∈ r1.2 → x ∉ r2.2) regions) :
    extractLowBins regions mats minCount rmDiag =
      specRegionLowMask regions mats minCount rmDiag :=
  extractLowBins_eq_spec_of_disjoint regions mats minCount rmDiag hdis

/-- C7 witness: the amended statement applied to two disjoint one-bin
regions. -/
theorem c7_low_bin_minimum_semantics_witness :
    List.Pairwise (fun r1 r2 => ∀ x, x ∈ r1.2 → x ∉ r2.2)
      ([("A", [0]), ("B", [1])] : List (String × List Nat)) ∧
    extractLowBins [("A", [0]), ("B", [1])]
        [fun i j => (([[5, 5, 0], [5, 0, 9], [0, 9, 9]].getD i []).getD j 0)]
        7 false =
      specRegionLowMask [("A", [0]), ("B", [1])]
        [fun i j => (([[5, 5, 0], [5, 0, 9], [0, 9, 9]].getD i []).getD j 0)]
        7 false :=
  ⟨by decide, c7_low_bin_minimum_semantics _ _ 7 false (by decide)⟩

/-- C8: the persisted normalised matrix of `__iceNormalisationProcess` is
computed from the original input matrix and the persisted, rounded bias vector
reloaded from the bias file — not from the in-loop floating matrix — so
reapplying the reloaded bias to the original matrix reproduces each persisted
entry exactly up to the final 8-decimal write, hence to within
`1 / (2 · 10^8)` (the round-trip law), for every matrix, iteration budget,
convergence threshold and square-root value. -/
theorem c8_bias_roundtrip (sqrtA : ℚ → ℚ) (m maxIter : Nat) (minDiff : ℚ)
    (orig : Nat → Nat → ℚ)
    (hsym : ∀ i ∈ Finset.range m, ∀ j ∈ Finset.range m, orig i j = orig j i) :
    ∃ b P, iceNormalisationProcess sqrtA m maxIter minDiff orig = .ok (b, P) ∧
      ∀ i j, P i j = round8 (orig i j / b i / b j) ∧
        |orig i j / b i / b j - P i j| ≤ 1 / 200000000 := by
  unfold iceNormalisationProcess
  rw [if_pos hsym]
  exact ⟨_, _, rfl, fun i j => ⟨rfl, round8_close _⟩⟩

/-- C8 witness: the round-trip law applied to the all-ones 1×1 matrix with a
zero iteration budget. -/
theorem c8_bias_roundtrip_witness :
    (∀ i ∈ Finset.range 1, ∀ j ∈ Finset.range 1,
      (fun _ _ => (1 : ℚ)) i j = (fun _ _ => (1 : ℚ)) j i) ∧
    (∃ b P, iceNormalisationProcess id 1 0 0 (fun _ _ => (1 : ℚ)) =
        .ok (b, P) ∧
      ∀ i j, P i j = round8 ((fun _ _ => (1 : ℚ)) i j / b i / b j) ∧
        |(fun _ _ => (1 : ℚ)) i j / b i / b j - P i j| ≤ 1 / 200000000) :=
  ⟨by decide, c8_bias_roundtrip id 1 0 0 (fun _ _ => (1 : ℚ)) (by decide)⟩

/-- C10 (code bug): the per-region file naming works as claimed when the
diagonal is excluded (`sample.region.minCount.noself.countMatrix.gz`), but in
the diagonal-included mode the name is formatted from `self.minCount`, an
attribute that is never assigned anywhere in `normaliseCountMatrices`, so the
worker raises `AttributeError` instead of producing any file. -/
theorem c10_filename_attribute_error :
    saveSubMatrixProcessNames "s" [("A", [0])] [("A", [false])] 5 true =
      .ok ["s.A.5.noself.countMatrix.gz"] ∧
    saveSubMatrixProcessNames "s" [("A", [0])] [("A", [false])] 5 false =
      .error "AttributeError: minCount" := by
  constructor <;> rfl
